import Mathlib

/-!
Verification of the `bifrost` JSON-Schema → proto3 converter
(`pkg/converter/converter.go`, the version the claims cite).

The converter consumes a JSON document already parsed by `json.Unmarshal`
into a `map[string]interface{}`.  We embed the parsed tree as `JValue`;
Go maps are embedded as association lists (`List (String × JValue)`):
a real parse yields at most one binding per key, and the code only ever
reads maps through key lookup and through sorted key lists, both of which
we mirror.  Character-level operations (`strings.ToLower`, the
`[^a-z0-9]` replacement, `strings.Split`) are embedded on `List Char`;
the Go code manipulates UTF-8 runes, and on the ASCII inputs relevant
here `Char.toLower`/`Char.toUpper` agree with Go's `strings` functions.
Go's `sort.Strings` byte order coincides with code-point order on
UTF-8, which is `String`'s lexicographic order here.
-/

/-- A parsed JSON value (the result of Go's `json.Unmarshal`). -/
inductive JValue where
  | null : JValue
  | bool : Bool → JValue
  | num : Int → JValue
  | str : String → JValue
  | arr : List JValue → JValue
  | obj : List (String × JValue) → JValue

/-- Shorthand for the embedding of `map[string]interface{}`. -/
abbrev JObj := List (String × JValue)

mutual

/-- Structural size of a `JValue`, used as recursion fuel for the
converter's property walk (which descends strictly into subtrees). -/
def jSize : JValue → Nat
  | JValue.null => 1
  | JValue.bool _ => 1
  | JValue.num _ => 1
  | JValue.str _ => 1
  | JValue.arr xs => 1 + jSizeArr xs
  | JValue.obj fs => 1 + jSizeObj fs

/-- Size of a list of `JValue`s. -/
def jSizeArr : List JValue → Nat
  | [] => 1
  | v :: vs => 1 + jSize v + jSizeArr vs

/-- Size of an object's binding list. -/
def jSizeObj : List (String × JValue) → Nat
  | [] => 1
  | (_, v) :: fs => 1 + jSize v + jSizeObj fs

end

/-- Go map lookup `m[k]` returning `nil` interface as `none`. -/
def jLookup (fields : JObj) (key : String) : Option JValue :=
  fields.lookup key

/-- Go's `m[k].(string)` type assertion: the string when the key holds one,
otherwise the zero value `""`. -/
def getString (fields : JObj) (key : String) : String :=
  match jLookup fields key with
  | some (JValue.str s) => s
  | _ => ""

/-- Go's `m[k].(map[string]interface{})` type assertion, as an `Option`. -/
def getObj (fields : JObj) (key : String) : Option JObj :=
  match jLookup fields key with
  | some (JValue.obj l) => some l
  | _ => none

/-- Converter configuration (`Options` in converter.go).  `TypeMappings`
is a Go `map[string]string`, embedded as an association list. -/
structure Options where
  packageName : String
  typeMappings : List (String × String)

/-- `DefaultOptions` from converter.go. -/
def DefaultOptions : Options :=
  { packageName := "schema"
    typeMappings :=
      [("string", "string"), ("integer", "int32"), ("number", "double"),
       ("boolean", "bool"), ("array", "repeated"), ("object", "message")] }

/-- `GetProtoType` from converter.go.  A `none` options value embeds the
Go `nil` pointer, replaced by `DefaultOptions`. -/
def GetProtoType (jsonType : String) (format : String) (opts : Option Options) : String :=
  let o := opts.getD DefaultOptions
  if format = "date-time" then "string"
  else
    match o.typeMappings.lookup jsonType with
    | some protoType => protoType
    | none => "string"

/-- The `[^a-z0-9]` replacement applied after lowercasing in
`SanitizeFieldName`. -/
def sanitizeChar (c : Char) : Char :=
  if (('a' ≤ c ∧ c ≤ 'z') ∨ ('0' ≤ c ∧ c ≤ '9')) then c else '_'

/-- `SanitizeFieldName` from converter.go: lowercase, replace every
character outside `[a-z0-9]` by `_`, and move a leading digit run to the
end (substituting `field` when nothing remains before the digits). -/
def SanitizeFieldName (name : String) : String :=
  let cs := (name.data.map Char.toLower).map sanitizeChar
  match cs with
  | [] => String.mk []
  | c :: _ =>
    if c.isDigit then
      let numbers := cs.takeWhile Char.isDigit
      let rest := cs.dropWhile Char.isDigit
      let rest := if rest = [] then "field".data else rest
      String.mk (rest ++ numbers)
    else String.mk cs

/-- Go's `strings.Split` on a one-character separator, over `List Char`.
`strings.Split("", sep) = [""]` and separators at the ends produce empty
segments, exactly as here. -/
def splitOnChar (sep : Char) : List Char → List (List Char)
  | [] => [[]]
  | c :: rest =>
    if c = sep then [] :: splitOnChar sep rest
    else
      match splitOnChar sep rest with
      | [] => [[c]]
      | p :: ps => (c :: p) :: ps

/-- Uppercase the first character of a segment when the segment is
nonempty (`strings.ToUpper(part[:1]) + part[1:]`). -/
def upFirst : List Char → List Char
  | [] => []
  | c :: rest => c.toUpper :: rest

/-- Core of `toProtoMessageName` on character lists: split on `_`,
uppercase each nonempty segment's first character, concatenate. -/
def toProtoMessageNameCore (cs : List Char) : List Char :=
  ((splitOnChar '_' cs).map upFirst).foldr (fun a b => a ++ b) []

/-- `toProtoMessageName` from converter.go. -/
def toProtoMessageName (name : String) : String :=
  String.mk (toProtoMessageNameCore name.data)

/-- `formatDescription` from converter.go: each line of the description
becomes a `// `-prefixed line. -/
def formatDescription (desc : String) : String :=
  String.join ((splitOnChar '\n' desc.data).map
    (fun line => "// " ++ String.mk line ++ "\n"))

/-- The message registry: Go `map[string]string` from message name to its
rendered text.  Insertion order is irrelevant because emission sorts. -/
abbrev Registry := List (String × String)

/-- Go map assignment `m[k] = v`: update in place or append. -/
def regSet (r : Registry) (k v : String) : Registry :=
  match r with
  | [] => [(k, v)]
  | (k', v') :: rest => if k' = k then (k, v) :: rest else (k', v') :: regSet rest k v

/-- Boolean lexicographic order on character lists, comparing code
points; this matches Go's byte order on strings because UTF-8 encoding
preserves code-point order. -/
def charListLe : List Char → List Char → Bool
  | [], _ => true
  | _ :: _, [] => false
  | a :: as, b :: bs =>
    if a.toNat < b.toNat then true
    else if b.toNat < a.toNat then false
    else charListLe as bs

/-- Boolean string order used by `sort.Strings`. -/
def strLe (a b : String) : Bool :=
  charListLe a.data b.data

/-- Insert into a `strLe`-sorted list. -/
def orderedInsertStr (a : String) : List String → List String
  | [] => [a]
  | b :: l => if strLe a b then a :: b :: l else b :: orderedInsertStr a l

/-- `sort.Strings` on a list of keys (insertion sort; `sort.Strings` is
some comparison sort, and all comparison sorts agree on the key lists of
a Go map, whose keys are distinct). -/
def sortStrings : List String → List String
  | [] => []
  | a :: l => orderedInsertStr a (sortStrings l)

/-- Collect a map's keys and sort them, as the converter does before every
traversal. -/
def sortedKeys (fields : JObj) : List String :=
  sortStrings (fields.map Prod.fst)

/-- The field-collection loop inside `processPropertyCollect`'s object
branch: iterate the sorted property names, resolve each value through the
given resolver, and append `  <type> <name> = <number>;` lines (skipping
empty resolved types without consuming a field number). -/
def collectNestedFields (f : String → JValue → Registry → Except String (String × Registry))
    (props : JObj) :
    List String → Nat → String → Registry → Except String (String × Registry)
  | [], _, fields, m => Except.ok (fields, m)
  | k :: ks, num, fields, m =>
    match f k ((jLookup props k).getD JValue.null) m with
    | Except.error e => Except.error e
    | Except.ok (fieldType, m') =>
      if fieldType = "" then collectNestedFields f props ks num fields m'
      else
        collectNestedFields f props ks (num + 1)
          (fields ++ "  " ++ fieldType ++ " " ++ SanitizeFieldName k ++ " = " ++
            toString num ++ ";\n") m'

/-- Error used only when the explicit recursion fuel runs out; the
wrapper `processPropertyCollect` always supplies enough fuel (see
`processPropertyCollectF_no_fuelErr`). -/
def fuelErr : String := "out of fuel"

/-- `processPropertyCollect` from converter.go, written with explicit
fuel so that the definition is structurally recursive.  Returns the proto
type for the property and the updated message registry. -/
def processPropertyCollectF :
    Nat → String → JValue → Registry → Options → Except String (String × Registry)
  | 0, _, _, _, _ => Except.error fuelErr
  | fuel + 1, name, prop, messages, opts =>
    match prop with
    | JValue.obj propMap =>
      let propType := getString propMap "type"
      let format := getString propMap "format"
      if propType = "array" then
        match getObj propMap "items" with
        | none => Except.error ("invalid array items format for " ++ name)
        | some items =>
          match processPropertyCollectF fuel (name ++ "Item") (JValue.obj items) messages opts with
          | Except.error e => Except.error e
          | Except.ok (itemType, m') => Except.ok ("repeated " ++ itemType, m')
      else if propType = "object" then
        let messageName := toProtoMessageName name
        if (messages.lookup messageName).isSome then Except.ok (messageName, messages)
        else
          let inner :=
            match getObj propMap "properties" with
            | some props =>
              collectNestedFields
                (fun n p m => processPropertyCollectF fuel n p m opts)
                props (sortedKeys props) 1 "" messages
            | none => Except.ok ("", messages)
          match inner with
          | Except.error e => Except.error e
          | Except.ok (fields, m') =>
            Except.ok (messageName,
              regSet m' messageName
                ("message " ++ messageName ++ " \x7b\n" ++ fields ++ "\x7d\n"))
      else Except.ok (GetProtoType propType format (some opts), messages)
    | _ => Except.error ("invalid property format for " ++ name)

/-- `processPropertyCollect`: the fuelled version at fuel `jSize prop + 1`,
which always suffices (the recursion descends strictly in `jSize`). -/
def processPropertyCollect (name : String) (prop : JValue) (messages : Registry)
    (opts : Options) : Except String (String × Registry) :=
  processPropertyCollectF (jSize prop + 1) name prop messages opts

/-- The comment block for a node's nonempty string `description` (Go:
`if desc, ok := m["description"].(string); ok && desc != ""`). -/
def objDescComment (node : JObj) : String :=
  let d := getString node "description"
  if d ≠ "" then formatDescription d else ""

/-- The comment block the top-level field loops write before a field
whose property value is a mapping carrying a nonempty description. -/
def descComment (props : JObj) (k : String) : String :=
  match jLookup props k with
  | some (JValue.obj pm) => objDescComment pm
  | _ => ""

/-- The field loop shared by the root-properties block and a definitions
entry's properties block in `ConvertJSONSchemaToProto`: like the nested
loop, but a property value that is a mapping with a nonempty string
`description` first contributes a comment block (written even when the
field itself is later skipped). -/
def collectTopLevelFields (props : JObj) (opts : Options) :
    List String → Nat → String → Registry → Except String (String × Registry)
  | [], _, fields, m => Except.ok (fields, m)
  | k :: ks, num, fields, m =>
    let fields := fields ++ descComment props k
    match processPropertyCollect k ((jLookup props k).getD JValue.null) m opts with
    | Except.error e => Except.error e
    | Except.ok (fieldType, m') =>
      if fieldType = "" then collectTopLevelFields props opts ks num fields m'
      else
        collectTopLevelFields props opts ks (num + 1)
          (fields ++ "  " ++ fieldType ++ " " ++ SanitizeFieldName k ++ " = " ++
            toString num ++ ";\n") m'

/-- The `definitions` loop of `ConvertJSONSchemaToProto`: each entry whose
value is a mapping is rendered (with its own field numbering restarting
at 1 and its own description comment) and assigned to the registry under
the raw definition key; non-mapping entries are skipped. -/
def defsLoop (defs : JObj) (opts : Options) :
    List String → Registry → Except String Registry
  | [], m => Except.ok m
  | dn :: dns, m =>
    match jLookup defs dn with
    | some (JValue.obj defMap) =>
      let inner :=
        match getObj defMap "properties" with
        | some props => collectTopLevelFields props opts (sortedKeys props) 1 "" m
        | none => Except.ok ("", m)
      match inner with
      | Except.error e => Except.error e
      | Except.ok (fields, m') =>
        defsLoop defs opts dns
          (regSet m' dn (objDescComment defMap ++ "message " ++ dn ++ " \x7b\n" ++ fields ++ "\x7d\n"))
    | _ => defsLoop defs opts dns m

/-- The registry-building phase of `ConvertJSONSchemaToProto`: the
root-properties block (which unconditionally assigns `Root` whenever the
top level has a `properties` mapping) followed by the definitions loop. -/
def convertCore (schema : JObj) (opts : Options) : Except String Registry :=
  let step1 : Except String Registry :=
    match getObj schema "properties" with
    | some props =>
      match collectTopLevelFields props opts (sortedKeys props) 1 "" [] with
      | Except.error e => Except.error e
      | Except.ok (rootFields, m) =>
        Except.ok (regSet m "Root"
          (objDescComment schema ++ "message Root \x7b\n" ++ rootFields ++ "\x7d\n"))
    | none => Except.ok []
  match step1 with
  | Except.error e => Except.error e
  | Except.ok m =>
    match getObj schema "definitions" with
    | some defs => defsLoop defs opts (sortedKeys defs) m
    | none => Except.ok m

/-- Find the first occurrence of `t`, returning the elements before and
after it. -/
def splitFirst (t : String) : List String → Option (List String × List String)
  | [] => none
  | y :: ys =>
    if y = t then some ([], ys)
    else
      match splitFirst t ys with
      | none => none
      | some (l, r) => some (y :: l, r)

/-- The `Move 'Root' to the front` step of the emitter: scan the sorted
names for `Root` at a nonzero index and SWAP it with position 0
(`msgNames[0], msgNames[i] = msgNames[i], msgNames[0]`). -/
def moveRootFirst (names : List String) : List String :=
  match names with
  | [] => []
  | x :: xs =>
    if x = "Root" then x :: xs
    else
      match splitFirst "Root" xs with
      | none => x :: xs
      | some (l, r) => "Root" :: (l ++ x :: r)

/-- Go's `strings.HasSuffix(s, "\n")`. -/
def hasNewlineSuffix (s : String) : Bool :=
  s.data.getLast? == some '\n'

/-- The emission loop: write each registered message in the
sorted-then-Root-swapped order, appending a newline when the stored text
does not already end with one. -/
def emitMessages (m : Registry) : String :=
  (moveRootFirst (sortStrings (m.map Prod.fst))).foldl
    (fun acc n =>
      let s := (m.lookup n).getD ""
      acc ++ s ++ (if hasNewlineSuffix s then "" else "\n")) ""

/-- The fixed file header: syntax line, blank line, package line, blank
line. -/
def headerText (o : Options) : String :=
  "syntax = \"proto3\";\n\npackage " ++ o.packageName ++ ";\n\n"

/-- `ConvertJSONSchemaToProto` from converter.go, on an already-parsed
top-level schema object (the `json.Unmarshal` step is outside this
embedding; a non-object top level fails that step before this code
runs).  The Go function returns `(string, error)`; we embed the pair,
with `("", some e)` for the error return. -/
def ConvertJSONSchemaToProto (schema : JObj) (opts : Option Options) :
    String × Option String :=
  let o := opts.getD DefaultOptions
  match convertCore schema o with
  | Except.error e => ("", some e)
  | Except.ok m => (headerText o ++ emitMessages m, none)

/-- Modelled from the spec: the message-naming rule of section 4.3 —
split a field/definition name on the non-alphanumeric separators
(underscore, hyphen, space, dot), lowercase each segment, uppercase each
segment's first character, drop empty segments, and concatenate with no
separator.  Stated only to compare against the source's
`toProtoMessageName`. -/
def pascalCaseSpec (name : String) : String :=
  let canon := name.data.map (fun c => if (c = '-' ∨ c = ' ' ∨ c = '.') then '_' else c)
  let segs := (splitOnChar '_' canon).filter (fun s => s ≠ [])
  String.mk ((segs.map (fun s => upFirst (s.map Char.toLower))).foldr (fun a b => a ++ b) [])

/-- The two error shapes `processPropertyCollect` can produce: a property
whose value is not a key/value mapping, and an array node without a
mapping `items`. -/
def structuralErr (e : String) : Prop :=
  (∃ n, e = "invalid property format for " ++ n) ∨
  (∃ n, e = "invalid array items format for " ++ n)

/-- Schema whose registry is {Root, Alpha, Mid, Root, Zeta}: empty
`properties` plus three empty definitions. -/
def schemaC1 : JObj :=
  [("properties", JValue.obj []),
   ("definitions",
    JValue.obj [("Alpha", JValue.obj []), ("Mid", JValue.obj []), ("Zeta", JValue.obj [])])]

/-- Schema with an object-typed property deriving message name `Person`
and a definitions entry with the same name but different fields. -/
def schemaC3 : JObj :=
  [("properties", JValue.obj
     [("person", JValue.obj
       [("type", JValue.str "object"),
        ("properties", JValue.obj [("name", JValue.obj [("type", JValue.str "string")])])])]),
   ("definitions", JValue.obj
     [("Person", JValue.obj
       [("type", JValue.str "object"),
        ("properties", JValue.obj [("age", JValue.obj [("type", JValue.str "integer")])])])])]

/-- Schema with a nested object-typed property carrying a description. -/
def schemaC7 : JObj :=
  [("properties", JValue.obj
     [("user", JValue.obj
       [("type", JValue.str "object"),
        ("description", JValue.str "A user"),
        ("properties", JValue.obj [("name", JValue.obj [("type", JValue.str "string")])])])])]

/-- Schema whose definitions mapping holds one non-mapping entry and one
well-formed entry. -/
def schemaC10 : JObj :=
  [("definitions", JValue.obj
     [("Bad", JValue.str "oops"),
      ("Good", JValue.obj
        [("type", JValue.str "object"),
         ("properties", JValue.obj [("id", JValue.obj [("type", JValue.str "string")])])])])]

/-- The same definitions mapping with the non-mapping entry removed. -/
def schemaC10' : JObj :=
  [("definitions", JValue.obj
     [("Good", JValue.obj
        [("type", JValue.str "object"),
         ("properties", JValue.obj [("id", JValue.obj [("type", JValue.str "string")])])])])]

mutual

/-- Two parsed values that differ only in the iteration order of their
objects' bindings: objects are related when one's binding list is a
permutation of the other's with equal keys and related values (and both
key lists are duplicate-free, as any Go map is); arrays are related
unconditionally because the converter never inspects an array value
beyond its failed map type assertion.  Two `json.Unmarshal` results for
the same input text are always related. -/
inductive JEq : JValue → JValue → Prop where
  | null : JEq JValue.null JValue.null
  | bool : ∀ b, JEq (JValue.bool b) (JValue.bool b)
  | num : ∀ n, JEq (JValue.num n) (JValue.num n)
  | str : ∀ s, JEq (JValue.str s) (JValue.str s)
  | arr : ∀ xs ys, JEq (JValue.arr xs) (JValue.arr ys)
  | obj : ∀ l₁ l l₂, JEqFields l₁ l → l.Perm l₂ →
      (l₁.map Prod.fst).Nodup → (l₂.map Prod.fst).Nodup →
      JEq (JValue.obj l₁) (JValue.obj l₂)

/-- Pointwise relatedness of two binding lists: equal keys in equal
positions, `JEq`-related values. -/
inductive JEqFields : List (String × JValue) → List (String × JValue) → Prop where
  | nil : JEqFields [] []
  | cons : ∀ k v₁ v₂ t₁ t₂, JEq v₁ v₂ → JEqFields t₁ t₂ →
      JEqFields ((k, v₁) :: t₁) ((k, v₂) :: t₂)

end

/-- Lifting of `JEq` to the results of a map lookup. -/
def OptJEq : Option JValue → Option JValue → Prop
  | none, none => True
  | some v₁, some v₂ => JEq v₁ v₂
  | _, _ => False

/-! ### Basic lemmas about lookups, sizes and the registry -/

theorem lookup_mem {β : Type} {k : String} {v : β} :
    ∀ {l : List (String × β)}, l.lookup k = some v → (k, v) ∈ l := by
  intro l
  induction l with
  | nil => intro h; simp [List.lookup] at h
  | cons p rest ih =>
    intro h
    obtain ⟨k', v'⟩ := p
    by_cases hk : k = k'
    · subst hk
      have hb : (k == k) = true := beq_self_eq_true k
      simp only [List.lookup, hb] at h
      injection h with h
      subst h
      exact List.mem_cons_self _ _
    · have hb : (k == k') = false := beq_eq_false_iff_ne.mpr hk
      simp only [List.lookup, hb] at h
      exact List.mem_cons_of_mem _ (ih h)

theorem jSize_pos (v : JValue) : 1 ≤ jSize v := by
  cases v <;> simp [jSize]

theorem jSizeObj_pos (fs : List (String × JValue)) : 1 ≤ jSizeObj fs := by
  cases fs with
  | nil => simp [jSizeObj]
  | cons p rest => obtain ⟨k, v⟩ := p; simp [jSizeObj]; omega

theorem jSize_lt_of_mem {k : String} {v : JValue} :
    ∀ {fs : List (String × JValue)}, (k, v) ∈ fs → jSize v < jSize (JValue.obj fs) := by
  intro fs
  induction fs with
  | nil => intro h; cases h
  | cons p rest ih =>
    intro h
    obtain ⟨k', v'⟩ := p
    rcases List.mem_cons.mp h with h1 | h2
    · cases h1
      simp [jSize, jSizeObj]
      omega
    · have := ih h2
      simp [jSize, jSizeObj] at *
      omega

theorem jLookup_size {fs : JObj} {k : String} {v : JValue}
    (h : jLookup fs k = some v) : jSize v < jSize (JValue.obj fs) :=
  jSize_lt_of_mem (lookup_mem h)

theorem getObj_size {fs : JObj} {k : String} {l : JObj}
    (h : getObj fs k = some l) : jSize (JValue.obj l) < jSize (JValue.obj fs) := by
  unfold getObj at h
  cases hj : jLookup fs k with
  | none => rw [hj] at h; cases h
  | some v =>
    rw [hj] at h
    cases v <;> simp at h
    subst h
    exact jLookup_size hj

theorem regSet_lookup_self : ∀ (r : Registry) (k v : String),
    (regSet r k v).lookup k = some v := by
  intro r k v
  induction r with
  | nil => simp [regSet, List.lookup]
  | cons p rest ih =>
    obtain ⟨k', v'⟩ := p
    by_cases hk : k' = k
    · subst hk; simp [regSet, List.lookup]
    · have hb : (k == k') = false := beq_eq_false_iff_ne.mpr (Ne.symm hk)
      simp [regSet, hk, List.lookup, hb, ih]

theorem regSet_keys : ∀ (r : Registry) (k v : String),
    (regSet r k v).map Prod.fst =
      (if k ∈ r.map Prod.fst then r.map Prod.fst else r.map Prod.fst ++ [k]) := by
  intro r k v
  induction r with
  | nil => simp [regSet]
  | cons p rest ih =>
    obtain ⟨k', v'⟩ := p
    by_cases hk : k' = k
    · subst hk; simp [regSet]
    · simp only [regSet, if_neg hk, List.map_cons, ih]
      by_cases hmem : k ∈ rest.map Prod.fst
      · simp [hmem, Ne.symm hk]
      · simp [hmem, Ne.symm hk]

theorem regSet_nodup {r : Registry} (k v : String)
    (h : (r.map Prod.fst).Nodup) : ((regSet r k v).map Prod.fst).Nodup := by
  rw [regSet_keys]
  by_cases hmem : k ∈ r.map Prod.fst
  · simpa [hmem]
  · simp only [if_neg hmem]
    refine List.Nodup.append h (List.nodup_singleton k) ?_
    intro a ha hb
    have hak : a = k := by simpa using hb
    subst hak
    exact hmem ha

theorem regSet_mem_self (r : Registry) (k v : String) :
    k ∈ (regSet r k v).map Prod.fst := by
  rw [regSet_keys]
  by_cases hmem : k ∈ r.map Prod.fst <;> simp [hmem]

theorem regSet_mem_mono {r : Registry} {k' : String} (k v : String)
    (h : k' ∈ r.map Prod.fst) : k' ∈ (regSet r k v).map Prod.fst := by
  rw [regSet_keys]
  by_cases hmem : k ∈ r.map Prod.fst <;> simp [hmem, h]

/-! ### Lemmas about character splitting and message naming -/

theorem splitOnChar_ne_nil (c : Char) : ∀ cs, splitOnChar c cs ≠ [] := by
  intro cs
  induction cs with
  | nil => simp [splitOnChar]
  | cons a rest ih =>
    by_cases ha : a = c
    · simp [splitOnChar, ha]
    · simp only [splitOnChar, if_neg ha]
      cases h : splitOnChar c rest with
      | nil => exact absurd h ih
      | cons p ps => simp

theorem splitOnChar_append (c : Char) :
    ∀ s t, splitOnChar c (s ++ c :: t) = splitOnChar c s ++ splitOnChar c t := by
  intro s t
  induction s with
  | nil => simp [splitOnChar]
  | cons a rest ih =>
    by_cases ha : a = c
    · subst ha
      simp [splitOnChar, ih]
    · cases h : splitOnChar c rest with
      | nil => exact absurd h (splitOnChar_ne_nil c rest)
      | cons p ps =>
        simp only [List.cons_append, splitOnChar, if_neg ha, List.append_eq]
        rw [ih, h]
        simp

theorem splitOnChar_no_sep (c : Char) : ∀ cs, c ∉ cs → splitOnChar c cs = [cs] := by
  intro cs
  induction cs with
  | nil => intro _; rfl
  | cons a rest ih =>
    intro h
    have ha : a ≠ c := fun hac => h (hac ▸ List.mem_cons_self a rest)
    have hrest : c ∉ rest := fun hc => h (List.mem_cons_of_mem a hc)
    simp [splitOnChar, ha, ih hrest]

theorem foldrApp_append : ∀ (l₁ l₂ : List (List Char)),
    (l₁ ++ l₂).foldr (fun a b => a ++ b) [] =
      l₁.foldr (fun a b => a ++ b) [] ++ l₂.foldr (fun a b => a ++ b) [] := by
  intro l₁ l₂
  induction l₁ with
  | nil => simp
  | cons a l ih => simp [ih]

theorem toProtoMessageNameCore_append (s t : List Char) :
    toProtoMessageNameCore (s ++ '_' :: t) =
      toProtoMessageNameCore s ++ toProtoMessageNameCore t := by
  unfold toProtoMessageNameCore
  rw [splitOnChar_append, List.map_append, foldrApp_append]

theorem string_mk_append (l₁ l₂ : List Char) :
    String.mk (l₁ ++ l₂) = String.mk l₁ ++ String.mk l₂ := rfl

theorem splitFirst_not_mem (t : String) : ∀ l, t ∉ l → splitFirst t l = none := by
  intro l
  induction l with
  | nil => intro _; rfl
  | cons x xs ih =>
    intro h
    have hx : x ≠ t := fun he => h (he ▸ List.mem_cons_self x xs)
    have hxs : t ∉ xs := fun hm => h (List.mem_cons_of_mem x hm)
    simp [splitFirst, hx, ih hxs]

theorem splitFirst_found (t : String) :
    ∀ l r, t ∉ l → splitFirst t (l ++ t :: r) = some (l, r) := by
  intro l
  induction l with
  | nil => intro r _; simp [splitFirst]
  | cons x xs ih =>
    intro r h
    have hx : x ≠ t := fun he => h (he ▸ List.mem_cons_self x xs)
    have hxs : t ∉ xs := fun hm => h (List.mem_cons_of_mem x hm)
    simp [splitFirst, hx, ih r hxs]

/-! ### Claim C4 -/

/-- Claim C4 (counterexample): the code's `toProtoMessageName` splits only
on underscores and never lowercases, so `USER_NAME` derives `USERNAME`
and `user-name` derives `User-name`, while the claimed rule
(`pascalCaseSpec`) derives `UserName` from both. -/
theorem c4_counterexample :
    toProtoMessageName "USER_NAME" = "USERNAME" ∧
    toProtoMessageName "user-name" = "User-name" ∧
    pascalCaseSpec "USER_NAME" = "UserName" ∧
    pascalCaseSpec "user-name" = "UserName" ∧
    toProtoMessageName "USER_NAME" ≠ pascalCaseSpec "USER_NAME" := by
  exact ⟨by decide, by decide, by decide, by decide, by decide⟩

/-- Claim C4 (amended): the derived message name is obtained by splitting
the name on underscores only (no other separator, and no lowercasing),
uppercasing each nonempty segment's first character while leaving the
rest of the segment unchanged, dropping empty segments, and
concatenating: the derivation is a homomorphism over `_`, acts as
`upFirst` on underscore-free names, and maps `user_name` to `UserName`
but `USER_NAME` to `USERNAME` and `user-name` to `User-name`. -/
theorem c4_amended :
    (∀ a b : String,
      toProtoMessageName (a ++ "_" ++ b) = toProtoMessageName a ++ toProtoMessageName b) ∧
    (∀ s : String, '_' ∉ s.data → toProtoMessageName s = String.mk (upFirst s.data)) ∧
    toProtoMessageName "user_name" = "UserName" ∧
    toProtoMessageName "USER_NAME" = "USERNAME" ∧
    toProtoMessageName "user name" = "User name" ∧
    toProtoMessageName "user.name" = "User.name" := by
  refine ⟨?_, ?_, by decide, by decide, by decide, by decide⟩
  · intro a b
    obtain ⟨da⟩ := a
    obtain ⟨db⟩ := b
    have hd : (String.mk da ++ "_" ++ String.mk db).data = da ++ '_' :: db := by
      show (da ++ ['_']) ++ db = da ++ '_' :: db
      simp
    unfold toProtoMessageName
    rw [hd, toProtoMessageNameCore_append, string_mk_append]
  · intro s h
    unfold toProtoMessageName toProtoMessageNameCore
    rw [splitOnChar_no_sep '_' s.data h]
    simp

/-- Claim C4 (witness): the amended characterization applied at the
concrete inputs `user ++ _ ++ name` and the underscore-free `abc`. -/
theorem c4_witness :
    toProtoMessageName ("user" ++ "_" ++ "name") =
      toProtoMessageName "user" ++ toProtoMessageName "name" ∧
    toProtoMessageName "abc" = String.mk (upFirst "abc".data) :=
  ⟨c4_amended.1 "user" "name", c4_amended.2.1 "abc" (by decide)⟩

/-! ### Claim C8 -/

/-- Claim C8: resolving `{type: string, format: date-time}` yields
`string` for every caller-supplied mapping; `{type: integer}` yields
`int32` under the default options and the caller's override when the
mapping carries one; any type absent from the mapping table yields
`string`. -/
theorem c8_scalar_resolution :
    (∀ (name : String) (m : Registry) (o : Options),
      processPropertyCollect name
        (JValue.obj [("type", JValue.str "string"), ("format", JValue.str "date-time")]) m o =
        Except.ok ("string", m)) ∧
    (∀ (jsonType : String) (o : Option Options), GetProtoType jsonType "date-time" o = "string") ∧
    (∀ (name : String) (m : Registry),
      processPropertyCollect name (JValue.obj [("type", JValue.str "integer")]) m DefaultOptions =
        Except.ok ("int32", m)) ∧
    (∀ (o : Options) (x : String), o.typeMappings.lookup "integer" = some x →
      ∀ (name : String) (m : Registry),
        processPropertyCollect name (JValue.obj [("type", JValue.str "integer")]) m o =
          Except.ok (x, m)) ∧
    (∀ (t fmt : String) (o : Option Options),
      (o.getD DefaultOptions).typeMappings.lookup t = none → GetProtoType t fmt o = "string") := by
  refine ⟨fun name m o => rfl, fun jsonType o => rfl, fun name m => rfl, ?_, ?_⟩
  · intro o x h name m
    show Except.ok (GetProtoType "integer" "" (some o), m) = Except.ok (x, m)
    simp [GetProtoType, h]
  · intro t fmt o h
    by_cases hf : fmt = "date-time"
    · subst hf; simp [GetProtoType]
    · simp [GetProtoType, hf, h]

/-- Claim C8 (witness): the override and fallback parts at concrete
inputs. -/
theorem c8_witness :
    processPropertyCollect "n" (JValue.obj [("type", JValue.str "integer")]) []
      { packageName := "p", typeMappings := [("integer", "sint64")] } =
      Except.ok ("sint64", []) ∧
    GetProtoType "unknowntype" "" none = "string" :=
  ⟨c8_scalar_resolution.2.2.2.1
      { packageName := "p", typeMappings := [("integer", "sint64")] } "sint64" rfl "n" [],
   c8_scalar_resolution.2.2.2.2 "unknowntype" "" none rfl⟩

/-! ### Claim C1 -/

/-- Claim C1 (counterexample): for the registry {Alpha, Mid, Root, Zeta}
(empty `properties` plus definitions Alpha, Mid, Zeta), the emitted order
is Root, Mid, Alpha, Zeta — the code swaps `Root` with the first sorted
name — and not the claimed Root, Alpha, Mid, Zeta. -/
theorem c1_counterexample :
    ConvertJSONSchemaToProto schemaC1 none =
      ("syntax = \"proto3\";\n\npackage schema;\n\nmessage Root \x7b\n\x7d\nmessage Mid \x7b\n\x7d\nmessage Alpha \x7b\n\x7d\nmessage Zeta \x7b\n\x7d\n",
       none) ∧
    ("syntax = \"proto3\";\n\npackage schema;\n\nmessage Root \x7b\n\x7d\nmessage Mid \x7b\n\x7d\nmessage Alpha \x7b\n\x7d\nmessage Zeta \x7b\n\x7d\n" : String) ≠
      "syntax = \"proto3\";\n\npackage schema;\n\nmessage Root \x7b\n\x7d\nmessage Alpha \x7b\n\x7d\nmessage Mid \x7b\n\x7d\nmessage Zeta \x7b\n\x7d\n" :=
  ⟨by decide, by decide⟩

/-- Claim C1 (amended): the emitted sequence is the lexicographically
sorted name list with `Root` swapped into front position: the previously
first name takes Root's old slot, so the other messages keep
lexicographic order only when Root's sorted index is at most 1.  When
`Root` is already first, or absent, the sorted order is unchanged.  For
the registry {Alpha, Mid, Root, Zeta} the emitted order is Root, Mid,
Alpha, Zeta. -/
theorem c1_amended :
    (∀ (x : String) (l r : List String), x ≠ "Root" → "Root" ∉ l →
      moveRootFirst (x :: (l ++ "Root" :: r)) = "Root" :: (l ++ x :: r)) ∧
    (∀ t : List String, moveRootFirst ("Root" :: t) = "Root" :: t) ∧
    (∀ ns : List String, "Root" ∉ ns → moveRootFirst ns = ns) ∧
    ConvertJSONSchemaToProto schemaC1 none =
      ("syntax = \"proto3\";\n\npackage schema;\n\nmessage Root \x7b\n\x7d\nmessage Mid \x7b\n\x7d\nmessage Alpha \x7b\n\x7d\nmessage Zeta \x7b\n\x7d\n",
       none) := by
  refine ⟨?_, ?_, ?_, by decide⟩
  · intro x l r hx hl
    simp [moveRootFirst, hx, splitFirst_found "Root" l r hl]
  · intro t
    simp [moveRootFirst]
  · intro ns h
    cases ns with
    | nil => rfl
    | cons x xs =>
      have hx : x ≠ "Root" := fun he => h (he ▸ List.mem_cons_self x xs)
      have hxs : "Root" ∉ xs := fun hm => h (List.mem_cons_of_mem x hm)
      simp [moveRootFirst, hx, splitFirst_not_mem "Root" xs hxs]

/-- Claim C1 (witness): the swap characterization applied at the sorted
name list [Alpha, Mid, Root, Zeta]. -/
theorem c1_witness :
    moveRootFirst ["Alpha", "Mid", "Root", "Zeta"] = ["Root", "Mid", "Alpha", "Zeta"] := by
  have h := c1_amended.1 "Alpha" ["Mid"] ["Zeta"] (by decide) (by decide)
  simpa using h

/-! ### Error-shape and fuel lemmas for the property walk -/

theorem collectNestedFields_error_shape
    {P : String → Prop}
    {f : String → JValue → Registry → Except String (String × Registry)}
    {props : JObj}
    (hf : ∀ k m e, f k ((jLookup props k).getD JValue.null) m = Except.error e → P e) :
    ∀ (ks : List String) (num : Nat) (acc : String) (m : Registry) (e : String),
      collectNestedFields f props ks num acc m = Except.error e → P e := by
  intro ks
  induction ks with
  | nil => intro num acc m e h; simp [collectNestedFields] at h
  | cons k ks ih =>
    intro num acc m e h
    simp only [collectNestedFields] at h
    split at h
    · rename_i e' hf'
      injection h with h
      exact h ▸ hf _ _ _ hf'
    · rename_i ft m' hf'
      split at h
      · exact ih _ _ _ _ h
      · exact ih _ _ _ _ h

theorem string_append_ne_fuelErr1 (name : String) :
    "invalid property format for " ++ name ≠ fuelErr := by
  intro h
  have hd := congrArg String.data h
  simp [fuelErr] at hd

theorem string_append_ne_fuelErr2 (name : String) :
    "invalid array items format for " ++ name ≠ fuelErr := by
  intro h
  have hd := congrArg String.data h
  simp [fuelErr] at hd

theorem pPCF_error_shape :
    ∀ (fuel : Nat) (name : String) (prop : JValue) (m : Registry) (o : Options) (e : String),
      processPropertyCollectF fuel name prop m o = Except.error e →
      e = fuelErr ∨ structuralErr e := by
  intro fuel
  induction fuel with
  | zero =>
    intro name prop m o e h
    simp only [processPropertyCollectF] at h
    injection h with h
    exact Or.inl h.symm
  | succ fuel ih =>
    intro name prop m o e h
    cases prop with
    | obj propMap =>
      simp only [processPropertyCollectF] at h
      split at h
      · -- array branch
        split at h
        · injection h with h
          exact Or.inr (Or.inr ⟨name, h.symm⟩)
        · split at h
          · rename_i e' hrec
            injection h with h
            exact h ▸ ih _ _ _ _ _ hrec
          · cases h
      · split at h
        · -- object branch
          split at h
          · cases h
          · split at h
            · rename_i e' hloop
              injection h with h
              subst h
              split at hloop
              · exact collectNestedFields_error_shape
                  (fun k m e hk => ih _ _ _ _ e hk) _ _ _ _ _ hloop
              · cases hloop
            · cases h
        · cases h
    | null =>
      simp only [processPropertyCollectF] at h
      injection h with h
      exact Or.inr (Or.inl ⟨name, h.symm⟩)
    | bool b =>
      simp only [processPropertyCollectF] at h
      injection h with h
      exact Or.inr (Or.inl ⟨name, h.symm⟩)
    | num n =>
      simp only [processPropertyCollectF] at h
      injection h with h
      exact Or.inr (Or.inl ⟨name, h.symm⟩)
    | str s =>
      simp only [processPropertyCollectF] at h
      injection h with h
      exact Or.inr (Or.inl ⟨name, h.symm⟩)
    | arr xs =>
      simp only [processPropertyCollectF] at h
      injection h with h
      exact Or.inr (Or.inl ⟨name, h.symm⟩)

theorem pPCF_no_fuelErr :
    ∀ (fuel : Nat) (prop : JValue), jSize prop ≤ fuel →
      ∀ (name : String) (m : Registry) (o : Options),
        processPropertyCollectF fuel name prop m o ≠ Except.error fuelErr := by
  intro fuel
  induction fuel with
  | zero =>
    intro prop hs
    have := jSize_pos prop
    omega
  | succ fuel ih =>
    intro prop hs name m o h
    cases prop with
    | obj propMap =>
      simp only [processPropertyCollectF] at h
      split at h
      · split at h
        · injection h with h
          exact string_append_ne_fuelErr2 name h
        · rename_i items hit
          split at h
          · rename_i e' hrec
            injection h with h
            subst h
            have hsz : jSize (JValue.obj items) ≤ fuel := by
              have h1 := getObj_size hit
              omega
            exact ih _ hsz _ _ _ hrec
          · cases h
      · split at h
        · split at h
          · cases h
          · split at h
            · rename_i e' hloop
              injection h with h
              subst h
              split at hloop
              · rename_i props hp
                have hf : ∀ (k : String) (m' : Registry) (e : String),
                    processPropertyCollectF fuel k ((jLookup props k).getD JValue.null) m' o =
                      Except.error e → e ≠ fuelErr := by
                  intro k m' e hk he
                  subst he
                  have hsz : jSize ((jLookup props k).getD JValue.null) ≤ fuel := by
                    have h2 := getObj_size hp
                    cases hj : jLookup props k with
                    | none =>
                      have h3 := jSizeObj_pos props
                      simp only [Option.getD]
                      simp only [jSize] at h2 hs ⊢
                      omega
                    | some v =>
                      have h1 := jLookup_size hj
                      simp only [Option.getD]
                      simp only [jSize] at h1 h2 hs
                      omega
                  exact ih _ hsz _ _ _ hk
                exact collectNestedFields_error_shape hf _ _ _ _ _ hloop rfl
              · cases hloop
            · cases h
        · cases h
    | null =>
      simp only [processPropertyCollectF] at h
      injection h with h
      exact string_append_ne_fuelErr1 name h
    | bool b =>
      simp only [processPropertyCollectF] at h
      injection h with h
      exact string_append_ne_fuelErr1 name h
    | num n =>
      simp only [processPropertyCollectF] at h
      injection h with h
      exact string_append_ne_fuelErr1 name h
    | str s =>
      simp only [processPropertyCollectF] at h
      injection h with h
      exact string_append_ne_fuelErr1 name h
    | arr xs =>
      simp only [processPropertyCollectF] at h
      injection h with h
      exact string_append_ne_fuelErr1 name h

theorem processPropertyCollect_error_shape {name : String} {prop : JValue} {m : Registry}
    {o : Options} {e : String}
    (h : processPropertyCollect name prop m o = Except.error e) : structuralErr e := by
  rcases pPCF_error_shape _ _ _ _ _ _ h with h1 | h2
  · subst h1
    exact absurd h (pPCF_no_fuelErr _ prop (by omega) name m o)
  · exact h2

theorem collectTopLevelFields_error_shape :
    ∀ (props : JObj) (o : Options) (ks : List String) (num : Nat) (acc : String)
      (m : Registry) (e : String),
      collectTopLevelFields props o ks num acc m = Except.error e → structuralErr e := by
  intro props o ks
  induction ks with
  | nil => intro num acc m e h; simp [collectTopLevelFields] at h
  | cons k ks ih =>
    intro num acc m e h
    simp only [collectTopLevelFields] at h
    split at h
    · rename_i e' hp
      injection h with h
      exact h ▸ processPropertyCollect_error_shape hp
    · split at h
      · exact ih _ _ _ _ h
      · exact ih _ _ _ _ h

theorem defsLoop_error_shape :
    ∀ (defs : JObj) (o : Options) (ns : List String) (m : Registry) (e : String),
      defsLoop defs o ns m = Except.error e → structuralErr e := by
  intro defs o ns
  induction ns with
  | nil => intro m e h; simp [defsLoop] at h
  | cons dn dns ih =>
    intro m e h
    simp only [defsLoop] at h
    split at h
    · rename_i defMap hdm
      split at h
      · rename_i e' hinner
        injection h with h
        subst h
        split at hinner
        · exact collectTopLevelFields_error_shape _ _ _ _ _ _ _ hinner
        · cases hinner
      · exact ih _ _ h
    · exact ih _ _ h

theorem convertCore_error_shape {schema : JObj} {o : Options} {e : String}
    (h : convertCore schema o = Except.error e) : structuralErr e := by
  simp only [convertCore] at h
  split at h
  · rename_i e' hstep
    injection h with h
    subst h
    split at hstep
    · split at hstep
      · injection hstep with hstep
        exact hstep ▸ collectTopLevelFields_error_shape _ _ _ _ _ _ _ (by assumption)
      · cases hstep
    · cases hstep
  · split at h
    · exact defsLoop_error_shape _ _ _ _ _ h
    · cases h

/-! ### Claim C5 -/

/-- Claim C5: a reached node with type `array` whose `items` member is
absent or not a mapping fails at the point of failure with a
`invalid array items format for <name>` error naming the offending
property; every erroring conversion returns the empty string as its
text; and the whole conversion of a schema whose property `tags` is such
an array returns exactly `("", invalid array items format for tags)`. -/
theorem c5_array_error_fatal :
    (∀ (name : String) (pm : JObj) (m : Registry) (o : Options),
      getString pm "type" = "array" → getObj pm "items" = none →
      processPropertyCollect name (JValue.obj pm) m o =
        Except.error ("invalid array items format for " ++ name)) ∧
    (∀ (schema : JObj) (opts : Option Options) (t e : String),
      ConvertJSONSchemaToProto schema opts = (t, some e) → t = "") ∧
    ConvertJSONSchemaToProto
      [("properties", JValue.obj [("tags", JValue.obj [("type", JValue.str "array")])])] none =
      ("", some "invalid array items format for tags") := by
  refine ⟨?_, ?_, by decide⟩
  · intro name pm m o ht hi
    show processPropertyCollectF (jSize (JValue.obj pm) + 1) name (JValue.obj pm) m o = _
    simp only [processPropertyCollectF]
    rw [ht]
    simp [hi]
  · intro schema opts t e h
    simp only [ConvertJSONSchemaToProto] at h
    split at h
    · have h1 := congrArg Prod.fst h
      simpa using h1.symm
    · have h2 := congrArg Prod.snd h
      simp at h2

/-- Claim C5 (witness): the point-of-failure error at the `tags`
property, and the empty-text part at the non-mapping-property failure. -/
theorem c5_witness :
    processPropertyCollect "tags" (JValue.obj [("type", JValue.str "array")]) [] DefaultOptions =
      Except.error ("invalid array items format for " ++ "tags") ∧
    ("" : String) = "" :=
  ⟨c5_array_error_fatal.1 "tags" [("type", JValue.str "array")] [] DefaultOptions rfl rfl,
   c5_array_error_fatal.2.1 [("properties", JValue.obj [("x", JValue.num 5)])] none ""
     "invalid property format for x" (by decide)⟩

/-! ### Claim C2 -/

/-- Claim C2 (counterexample): a property whose value is not a key/value
mapping is fatal, not degraded: converting
`{"properties": {"x": 5}}` fails with `invalid property format for x`
instead of skipping the property. -/
theorem c2_counterexample :
    ConvertJSONSchemaToProto [("properties", JValue.obj [("x", JValue.num 5)])] none =
      ("", some "invalid property format for x") := by decide

/-- Claim C2 (amended): two structural malformations are fatal, not one:
an array node whose `items` is absent or not a mapping, and a reached
property whose value is not a key/value mapping.  Every conversion error
has one of these two shapes, and a non-mapping `properties` member or
non-mapping `definitions` entry still degrades to best-effort output. -/
theorem c2_error_characterization :
    (∀ (schema : JObj) (opts : Option Options) (t e : String),
      ConvertJSONSchemaToProto schema opts = (t, some e) → structuralErr e) ∧
    ConvertJSONSchemaToProto [("properties", JValue.num 3)] none =
      (headerText DefaultOptions, none) ∧
    ConvertJSONSchemaToProto [("definitions", JValue.obj [("D", JValue.str "x")])] none =
      (headerText DefaultOptions, none) ∧
    ConvertJSONSchemaToProto [("properties", JValue.obj [("x", JValue.num 5)])] none =
      ("", some "invalid property format for x") := by
  refine ⟨?_, by decide, by decide, by decide⟩
  · intro schema opts t e h
    simp only [ConvertJSONSchemaToProto] at h
    split at h
    · rename_i e' hcore
      have h2 := congrArg Prod.snd h
      simp at h2
      exact h2 ▸ convertCore_error_shape hcore
    · have h2 := congrArg Prod.snd h
      simp at h2

/-- Claim C2 (witness): the error characterization applied at the
concrete failing schema. -/
theorem c2_witness : structuralErr "invalid property format for x" :=
  c2_error_characterization.1 [("properties", JValue.obj [("x", JValue.num 5)])] none ""
    "invalid property format for x" (by decide)

/-! ### Claim C10 -/

/-- Claim C10: a top-level definitions entry whose value is not a
key/value mapping is silently skipped: the definitions-loop step for its
key is the identity, and converting a schema with such an entry gives
exactly the output of the schema with that entry removed. -/
theorem c10_definitions_skip :
    (∀ (defs : JObj) (o : Options) (k : String) (ns : List String) (m : Registry),
      (∀ l, jLookup defs k ≠ some (JValue.obj l)) →
      defsLoop defs o (k :: ns) m = defsLoop defs o ns m) ∧
    ConvertJSONSchemaToProto schemaC10 none = ConvertJSONSchemaToProto schemaC10' none := by
  refine ⟨?_, by decide⟩
  · intro defs o k ns m hk
    cases hj : jLookup defs k with
    | none => simp [defsLoop, hj]
    | some v =>
      cases v with
      | obj l => exact absurd hj (hk l)
      | null => simp [defsLoop, hj]
      | bool b => simp [defsLoop, hj]
      | num n => simp [defsLoop, hj]
      | str s => simp [defsLoop, hj]
      | arr xs => simp [defsLoop, hj]

/-- Claim C10 (witness): the skip step applied at the concrete entry
`Bad` bound to a string. -/
theorem c10_witness :
    defsLoop [("Bad", JValue.str "oops")] DefaultOptions ["Bad"] [] =
      defsLoop [("Bad", JValue.str "oops")] DefaultOptions [] [] :=
  c10_definitions_skip.1 [("Bad", JValue.str "oops")] DefaultOptions "Bad" [] []
    (fun l hl => by simp [jLookup, List.lookup] at hl)

/-! ### Registry-invariant preservation through the walk -/

theorem collectNestedFields_preserves {P : Registry → Prop}
    {f : String → JValue → Registry → Except String (String × Registry)}
    {props : JObj}
    (hf : ∀ k m s m', f k ((jLookup props k).getD JValue.null) m = Except.ok (s, m') →
      P m → P m') :
    ∀ (ks : List String) (num : Nat) (acc : String) (m : Registry) (s : String) (m' : Registry),
      collectNestedFields f props ks num acc m = Except.ok (s, m') → P m → P m' := by
  intro ks
  induction ks with
  | nil =>
    intro num acc m s m' h hm
    simp only [collectNestedFields] at h
    injection h with h
    cases h
    exact hm
  | cons k ks ih =>
    intro num acc m s m' h hm
    simp only [collectNestedFields] at h
    split at h
    · cases h
    · rename_i ft m₁ hf'
      have hm₁ : P m₁ := hf _ _ _ _ hf' hm
      split at h
      · exact ih _ _ _ _ _ h hm₁
      · exact ih _ _ _ _ _ h hm₁

theorem pPCF_preserves {P : Registry → Prop}
    (hP : ∀ (m : Registry) (k v : String), P m → P (regSet m k v)) :
    ∀ (fuel : Nat) (name : String) (prop : JValue) (m : Registry) (o : Options)
      (s : String) (m' : Registry),
      processPropertyCollectF fuel name prop m o = Except.ok (s, m') → P m → P m' := by
  intro fuel
  induction fuel with
  | zero => intro name prop m o s m' h hm; simp [processPropertyCollectF] at h
  | succ fuel ih =>
    intro name prop m o s m' h hm
    cases prop with
    | obj propMap =>
      simp only [processPropertyCollectF] at h
      split at h
      · split at h
        · cases h
        · split at h
          · cases h
          · rename_i it m₁ hrec
            injection h with h
            cases h
            exact ih _ _ _ _ _ _ hrec hm
      · split at h
        · split at h
          · injection h with h
            cases h
            exact hm
          · split at h
            · cases h
            · rename_i fields m₁ hloop
              injection h with h
              cases h
              refine hP _ _ _ ?_
              split at hloop
              · rename_i props hp
                have hf : ∀ (k : String) (mr : Registry) (sr : String) (mr' : Registry),
                    processPropertyCollectF fuel k ((jLookup props k).getD JValue.null) mr o =
                      Except.ok (sr, mr') → P mr → P mr' :=
                  fun k mr sr mr' hk hmr => ih _ _ _ _ _ _ hk hmr
                exact collectNestedFields_preserves hf _ _ _ _ _ _ hloop hm
              · injection hloop with hloop
                cases hloop
                exact hm
        · injection h with h
          cases h
          exact hm
    | null => simp [processPropertyCollectF] at h
    | bool b => simp [processPropertyCollectF] at h
    | num n => simp [processPropertyCollectF] at h
    | str s => simp [processPropertyCollectF] at h
    | arr xs => simp [processPropertyCollectF] at h

theorem collectTopLevelFields_preserves {P : Registry → Prop}
    (hP : ∀ (m : Registry) (k v : String), P m → P (regSet m k v)) :
    ∀ (props : JObj) (o : Options) (ks : List String) (num : Nat) (acc : String)
      (m : Registry) (s : String) (m' : Registry),
      collectTopLevelFields props o ks num acc m = Except.ok (s, m') → P m → P m' := by
  intro props o ks
  induction ks with
  | nil =>
    intro num acc m s m' h hm
    simp only [collectTopLevelFields] at h
    injection h with h
    cases h
    exact hm
  | cons k ks ih =>
    intro num acc m s m' h hm
    simp only [collectTopLevelFields] at h
    split at h
    · cases h
    · rename_i ft m₁ hf'
      have hm₁ : P m₁ := pPCF_preserves hP _ _ _ _ _ _ _ hf' hm
      split at h
      · exact ih _ _ _ _ _ h hm₁
      · exact ih _ _ _ _ _ h hm₁

theorem defsLoop_preserves {P : Registry → Prop}
    (hP : ∀ (m : Registry) (k v : String), P m → P (regSet m k v)) :
    ∀ (defs : JObj) (o : Options) (ns : List String) (m m' : Registry),
      defsLoop defs o ns m = Except.ok m' → P m → P m' := by
  intro defs o ns
  induction ns with
  | nil =>
    intro m m' h hm
    simp only [defsLoop] at h
    injection h with h
    exact h ▸ hm
  | cons dn dns ih =>
    intro m m' h hm
    simp only [defsLoop] at h
    split at h
    · rename_i dm hdm
      split at h
      · cases h
      · rename_i fields m₁ hinner
        refine ih _ _ h (hP _ _ _ ?_)
        split at hinner
        · exact collectTopLevelFields_preserves hP _ _ _ _ _ _ _ _ hinner hm
        · injection hinner with hinner
          cases hinner
          exact hm
    · exact ih _ _ h hm

theorem convertCore_nodup {schema : JObj} {o : Options} {m : Registry}
    (h : convertCore schema o = Except.ok m) : (m.map Prod.fst).Nodup := by
  have hP : ∀ (r : Registry) (k v : String), (r.map Prod.fst).Nodup →
      ((regSet r k v).map Prod.fst).Nodup := fun r k v hr => regSet_nodup k v hr
  simp only [convertCore] at h
  split at h
  · cases h
  · rename_i m₁ hstep
    have hm₁ : (m₁.map Prod.fst).Nodup := by
      split at hstep
      · split at hstep
        · cases hstep
        · rename_i rootFields m₀ hc
          injection hstep with hstep
          subst hstep
          exact hP _ _ _ (collectTopLevelFields_preserves hP _ _ _ _ _ _ _ _ hc (by simp))
      · injection hstep with hstep
        subst hstep
        simp
    split at h
    · exact defsLoop_preserves hP _ _ _ _ _ h hm₁
    · injection h with h
      exact h ▸ hm₁

theorem convertCore_root_mem {schema : JObj} {o : Options} {props : JObj} {m : Registry}
    (hp : getObj schema "properties" = some props)
    (h : convertCore schema o = Except.ok m) : "Root" ∈ m.map Prod.fst := by
  have hP : ∀ (r : Registry) (k v : String), "Root" ∈ r.map Prod.fst →
      "Root" ∈ (regSet r k v).map Prod.fst := fun r k v hr => regSet_mem_mono k v hr
  simp only [convertCore, hp] at h
  split at h
  · cases h
  · rename_i m₁ hstep
    have hm₁ : "Root" ∈ m₁.map Prod.fst := by
      split at hstep
      · cases hstep
      · rename_i rootFields m₀ hc
        injection hstep with hstep
        subst hstep
        exact regSet_mem_self _ _ _
    split at h
    · exact defsLoop_preserves hP _ _ _ _ _ h hm₁
    · injection h with h
      exact h ▸ hm₁

/-! ### Claim C6 -/

/-- Claim C6 (counterexample): a message named `Root` is emitted although
the top-level schema has no `properties` mapping — a definitions entry
keyed `Root` registers it — refuting the claimed "only if" direction. -/
theorem c6_counterexample :
    ConvertJSONSchemaToProto [("definitions", JValue.obj [("Root", JValue.obj [])])] none =
      ("syntax = \"proto3\";\n\npackage schema;\n\nmessage Root \x7b\n\x7d\n", none) ∧
    getObj [("definitions", JValue.obj [("Root", JValue.obj [])])] "properties" = none :=
  ⟨by decide, rfl⟩

/-- Claim C6 (amended): the top-level Root message is registered exactly
when the schema has a `properties` mapping — `properties: {}` yields an
empty `message Root {}`, a schema with neither `properties` nor
`definitions` mappings yields only the syntax and package lines, and
whenever `properties` is a mapping the final registry contains `Root` —
but a message named `Root` can also be emitted without top-level
properties, via a definitions entry keyed `Root`. -/
theorem c6_root_emission :
    (∀ (schema : JObj) (opts : Option Options),
      getObj schema "properties" = none → getObj schema "definitions" = none →
      ConvertJSONSchemaToProto schema opts = (headerText (opts.getD DefaultOptions), none)) ∧
    (∀ opts : Option Options,
      ConvertJSONSchemaToProto [("properties", JValue.obj [])] opts =
        (headerText (opts.getD DefaultOptions) ++ "message Root \x7b\n\x7d\n", none)) ∧
    (∀ (schema : JObj) (o : Options) (props : JObj) (m : Registry),
      getObj schema "properties" = some props → convertCore schema o = Except.ok m →
      "Root" ∈ m.map Prod.fst) ∧
    ConvertJSONSchemaToProto [("definitions", JValue.obj [("Root", JValue.obj [])])] none =
      (headerText DefaultOptions ++ "message Root \x7b\n\x7d\n", none) := by
  refine ⟨?_, fun opts => rfl, ?_, by decide⟩
  · intro schema opts h1 h2
    simp only [ConvertJSONSchemaToProto, convertCore, h1, h2]
    simp [emitMessages, sortStrings, moveRootFirst]
  · intro schema o props m hp h
    exact convertCore_root_mem hp h

/-- Claim C6 (witness): the header-only part applied at the empty schema
and the Root-membership part applied at `properties: {}`. -/
theorem c6_witness :
    ConvertJSONSchemaToProto [] none = (headerText DefaultOptions, none) ∧
    "Root" ∈ ([("Root", "message Root \x7b\n\x7d\n")] : Registry).map Prod.fst :=
  ⟨c6_root_emission.1 [] none rfl rfl,
   c6_root_emission.2.2.1 [("properties", JValue.obj [])] DefaultOptions [] _ rfl rfl⟩

/-! ### Claim C3 -/

/-- Claim C3 (counterexample): the registry is not write-once across the
whole conversion: in `schemaC3` the object-typed property `person` first
registers `message Person { string name = 1; }`, and the later
definitions entry `Person` overwrites it — the emitted `Person` message
holds `int32 age = 1;`, so the first occurrence did not win. -/
theorem c3_counterexample :
    ConvertJSONSchemaToProto schemaC3 none =
      ("syntax = \"proto3\";\n\npackage schema;\n\nmessage Root \x7b\n  Person person = 1;\n\x7d\nmessage Person \x7b\n  int32 age = 1;\n\x7d\n",
       none) ∧
    ("syntax = \"proto3\";\n\npackage schema;\n\nmessage Root \x7b\n  Person person = 1;\n\x7d\nmessage Person \x7b\n  int32 age = 1;\n\x7d\n" : String) ≠
      "syntax = \"proto3\";\n\npackage schema;\n\nmessage Root \x7b\n  Person person = 1;\n\x7d\nmessage Person \x7b\n  string name = 1;\n\x7d\n" :=
  ⟨by decide, by decide⟩

/-- Claim C3 (amended): only `processPropertyCollect`'s object branch is
write-once — resolving an object-typed node whose derived name is
already registered returns that name without touching the registry —
while the top-level `Root` assignment and each definitions entry assign
unconditionally and can overwrite an earlier entry of the same name
(last writer wins there); the final registry still holds exactly one
definition per name (its key list has no duplicates). -/
theorem c3_registry_behavior :
    (∀ (name : String) (pm : JObj) (m : Registry) (o : Options),
      getString pm "type" = "object" →
      (m.lookup (toProtoMessageName name)).isSome →
      processPropertyCollect name (JValue.obj pm) m o =
        Except.ok (toProtoMessageName name, m)) ∧
    (∀ (schema : JObj) (o : Options) (m : Registry),
      convertCore schema o = Except.ok m → (m.map Prod.fst).Nodup) ∧
    ConvertJSONSchemaToProto schemaC3 none =
      ("syntax = \"proto3\";\n\npackage schema;\n\nmessage Root \x7b\n  Person person = 1;\n\x7d\nmessage Person \x7b\n  int32 age = 1;\n\x7d\n",
       none) := by
  refine ⟨?_, ?_, by decide⟩
  · intro name pm m o ht hin
    show processPropertyCollectF (jSize (JValue.obj pm) + 1) name (JValue.obj pm) m o = _
    simp only [processPropertyCollectF]
    rw [ht]
    simp [hin]
  · intro schema o m h
    exact convertCore_nodup h

/-- Claim C3 (witness): the write-once object branch applied at a
registry already holding `Person`, and the no-duplicates part applied at
the empty schema. -/
theorem c3_witness :
    processPropertyCollect "person" (JValue.obj [("type", JValue.str "object")])
      [("Person", "message Person \x7b\n\x7d\n")] DefaultOptions =
      Except.ok (toProtoMessageName "person", [("Person", "message Person \x7b\n\x7d\n")]) ∧
    ((([] : Registry)).map Prod.fst).Nodup :=
  ⟨c3_registry_behavior.1 "person" [("type", JValue.str "object")]
      [("Person", "message Person \x7b\n\x7d\n")] DefaultOptions rfl (by decide),
   c3_registry_behavior.2.1 [] DefaultOptions [] rfl⟩

/-! ### Claim C7 -/

/-- Claim C7 (counterexample): the message definition registered for a
nested object-typed property carrying a description has no leading
comment: resolving the `user` node of `schemaC7` registers exactly
`message User { string name = 1; }`, not a definition starting with
`// A user`. -/
theorem c7_counterexample :
    processPropertyCollect "user"
      (JValue.obj
        [("type", JValue.str "object"),
         ("description", JValue.str "A user"),
         ("properties", JValue.obj [("name", JValue.obj [("type", JValue.str "string")])])])
      [] DefaultOptions =
      Except.ok ("User", [("User", "message User \x7b\n  string name = 1;\n\x7d\n")]) ∧
    ("message User \x7b\n  string name = 1;\n\x7d\n" : String) ≠
      "// A user\nmessage User \x7b\n  string name = 1;\n\x7d\n" :=
  ⟨rfl, by decide⟩

/-- Claim C7 (amended): the registered definition for a nested
object-typed property always has the bare shape
`message <Name> {\n<fields>}\n` with no comment block — the node's
description is not preserved on the nested message; instead, when the
property is a direct member of the top level (or of a definitions
entry), its description is rendered as a `//` comment before the
referencing field of the enclosing message, as the conversion of
`schemaC7` shows. -/
theorem c7_nested_description :
    (∀ (name : String) (pm : JObj) (m : Registry) (o : Options) (s : String) (m' : Registry),
      getString pm "type" = "object" →
      m.lookup (toProtoMessageName name) = none →
      processPropertyCollect name (JValue.obj pm) m o = Except.ok (s, m') →
      ∃ fields, m'.lookup (toProtoMessageName name) =
        some ("message " ++ toProtoMessageName name ++ " \x7b\n" ++ fields ++ "\x7d\n")) ∧
    ConvertJSONSchemaToProto schemaC7 none =
      ("syntax = \"proto3\";\n\npackage schema;\n\nmessage Root \x7b\n// A user\n  User user = 1;\n\x7d\nmessage User \x7b\n  string name = 1;\n\x7d\n",
       none) := by
  refine ⟨?_, by decide⟩
  · intro name pm m o s m' ht hnone hpc
    rw [show processPropertyCollect name (JValue.obj pm) m o =
        processPropertyCollectF (jSize (JValue.obj pm) + 1) name (JValue.obj pm) m o from rfl]
      at hpc
    simp only [processPropertyCollectF] at hpc
    rw [ht] at hpc
    rw [if_neg (by decide : ¬ ("object" : String) = "array")] at hpc
    rw [if_pos rfl] at hpc
    rw [hnone] at hpc
    rw [if_neg (by simp : ¬ ((none : Option String).isSome = true))] at hpc
    split at hpc
    · cases hpc
    · rename_i fields m₁ hloop
      injection hpc with hpc
      cases hpc
      exact ⟨fields, regSet_lookup_self _ _ _⟩

/-- Claim C7 (witness): the no-comment shape applied at the `user` node
of `schemaC7`. -/
theorem c7_witness :
    ∃ fields,
      ([("User", "message User \x7b\n  string name = 1;\n\x7d\n")] : Registry).lookup
          (toProtoMessageName "user") =
        some ("message " ++ toProtoMessageName "user" ++ " \x7b\n" ++ fields ++ "\x7d\n") :=
  c7_nested_description.1 "user"
    [("type", JValue.str "object"),
     ("description", JValue.str "A user"),
     ("properties", JValue.obj [("name", JValue.obj [("type", JValue.str "string")])])]
    [] DefaultOptions "User" _ rfl rfl rfl

/-! ### Order lemmas for the key sort -/

theorem char_toNat_inj {a b : Char} (h : a.toNat = b.toNat) : a = b :=
  Char.eq_of_val_eq (UInt32.ext h)

theorem charListLe_total : ∀ a b, charListLe a b = true ∨ charListLe b a = true := by
  intro a
  induction a with
  | nil => intro b; left; rfl
  | cons x xs ih =>
    intro b
    cases b with
    | nil => right; rfl
    | cons y ys =>
      by_cases h1 : x.toNat < y.toNat
      · left; simp [charListLe, h1]
      · by_cases h2 : y.toNat < x.toNat
        · right; simp [charListLe, h2]
        · rcases ih ys with h | h
          · left; simp [charListLe, h1, h2, h]
          · right; simp [charListLe, h1, h2, h]

theorem charListLe_trans :
    ∀ a b c, charListLe a b = true → charListLe b c = true → charListLe a c = true := by
  intro a
  induction a with
  | nil => intro b c _ _; rfl
  | cons x xs ih =>
    intro b c hab hbc
    cases b with
    | nil => exact Bool.noConfusion hab
    | cons y ys =>
      cases c with
      | nil => exact Bool.noConfusion hbc
      | cons z zs =>
        simp only [charListLe] at hab hbc ⊢
        by_cases h1 : x.toNat < y.toNat
        · by_cases h2 : y.toNat < z.toNat
          · rw [if_pos (show x.toNat < z.toNat by omega)]
          · rw [if_neg h2] at hbc
            by_cases h3 : z.toNat < y.toNat
            · rw [if_pos h3] at hbc
              exact Bool.noConfusion hbc
            · rw [if_neg h3] at hbc
              rw [if_pos (show x.toNat < z.toNat by omega)]
        · rw [if_neg h1] at hab
          by_cases h4 : y.toNat < x.toNat
          · rw [if_pos h4] at hab
            exact Bool.noConfusion hab
          · rw [if_neg h4] at hab
            by_cases h2 : y.toNat < z.toNat
            · rw [if_pos (show x.toNat < z.toNat by omega)]
            · rw [if_neg h2] at hbc
              by_cases h3 : z.toNat < y.toNat
              · rw [if_pos h3] at hbc
                exact Bool.noConfusion hbc
              · rw [if_neg h3] at hbc
                rw [if_neg (show ¬ x.toNat < z.toNat by omega),
                    if_neg (show ¬ z.toNat < x.toNat by omega)]
                exact ih ys zs hab hbc

theorem charListLe_antisymm :
    ∀ a b, charListLe a b = true → charListLe b a = true → a = b := by
  intro a
  induction a with
  | nil =>
    intro b _ hba
    cases b with
    | nil => rfl
    | cons y ys => simp [charListLe] at hba
  | cons x xs ih =>
    intro b hab hba
    cases b with
    | nil => simp [charListLe] at hab
    | cons y ys =>
      simp only [charListLe] at hab hba
      by_cases h1 : x.toNat < y.toNat
      · simp [show ¬ y.toNat < x.toNat by omega, h1] at hba
      · by_cases h2 : y.toNat < x.toNat
        · simp [h1, h2] at hab
        · simp [h1, h2] at hab hba
          have hxy : x = y := char_toNat_inj (by omega)
          rw [hxy, ih ys hab hba]

theorem strLe_total (a b : String) : strLe a b = true ∨ strLe b a = true :=
  charListLe_total a.data b.data

theorem strLe_trans {a b c : String} (hab : strLe a b = true) (hbc : strLe b c = true) :
    strLe a c = true :=
  charListLe_trans a.data b.data c.data hab hbc

theorem strLe_antisymm {a b : String} (hab : strLe a b = true) (hba : strLe b a = true) :
    a = b := by
  have hd : a.data = b.data := charListLe_antisymm a.data b.data hab hba
  cases a
  cases b
  exact congrArg String.mk hd

theorem orderedInsertStr_perm (a : String) :
    ∀ l, (orderedInsertStr a l).Perm (a :: l) := by
  intro l
  induction l with
  | nil => simp [orderedInsertStr]
  | cons b l ih =>
    by_cases h : strLe a b
    · simp [orderedInsertStr, h]
    · simp only [orderedInsertStr, if_neg h]
      exact (ih.cons b).trans (List.Perm.swap a b l)

theorem sortStrings_perm : ∀ l, (sortStrings l).Perm l := by
  intro l
  induction l with
  | nil => simp [sortStrings]
  | cons a l ih =>
    simp only [sortStrings]
    exact (orderedInsertStr_perm a (sortStrings l)).trans (ih.cons a)

theorem orderedInsertStr_sorted (a : String) :
    ∀ l, l.Pairwise (fun x y => strLe x y = true) →
      (orderedInsertStr a l).Pairwise (fun x y => strLe x y = true) := by
  intro l
  induction l with
  | nil => intro _; simp [orderedInsertStr]
  | cons b l ih =>
    intro hs
    rcases List.pairwise_cons.mp hs with ⟨hb, hl⟩
    by_cases h : strLe a b
    · simp only [orderedInsertStr, if_pos h]
      refine List.pairwise_cons.mpr ⟨?_, hs⟩
      intro c hc
      rcases List.mem_cons.mp hc with rfl | hc
      · exact h
      · exact strLe_trans h (hb c hc)
    · simp only [orderedInsertStr, if_neg h]
      refine List.pairwise_cons.mpr ⟨?_, ih hl⟩
      intro c hc
      have hc' := (orderedInsertStr_perm a l).mem_iff.mp hc
      rcases List.mem_cons.mp hc' with hca | hc''
      · subst hca
        rcases strLe_total c b with hab | hba
        · exact absurd hab h
        · exact hba
      · exact hb c hc''

theorem sortStrings_sorted : ∀ l, (sortStrings l).Pairwise (fun x y => strLe x y = true) := by
  intro l
  induction l with
  | nil => simp [sortStrings]
  | cons a l ih =>
    simp only [sortStrings]
    exact orderedInsertStr_sorted a _ ih

theorem sortStrings_congr {l₁ l₂ : List String} (h : l₁.Perm l₂) :
    sortStrings l₁ = sortStrings l₂ := by
  haveI : IsAntisymm String (fun x y => strLe x y = true) :=
    ⟨fun a b hab hba => strLe_antisymm hab hba⟩
  have hp : (sortStrings l₁).Perm (sortStrings l₂) :=
    (sortStrings_perm l₁).trans (h.trans (sortStrings_perm l₂).symm)
  exact List.eq_of_perm_of_sorted hp (sortStrings_sorted l₁) (sortStrings_sorted l₂)

/-! ### Lookup lemmas for permuted objects -/

theorem perm_lookup {β : Type} : ∀ {l l' : List (String × β)}, l.Perm l' →
    (l.map Prod.fst).Nodup → ∀ k, l.lookup k = l'.lookup k := by
  intro l l' hp
  induction hp with
  | nil => intro _ _; rfl
  | cons x p ih =>
    intro hn k
    obtain ⟨kx, vx⟩ := x
    simp only [List.lookup]
    cases k == kx
    · refine ih ?_ k
      simp only [List.map_cons, List.nodup_cons] at hn
      exact hn.2
    · rfl
  | swap x y l =>
    intro hn k
    obtain ⟨kx, vx⟩ := x
    obtain ⟨ky, vy⟩ := y
    have hne : ky ≠ kx := by
      intro he
      subst he
      simp at hn
    simp only [List.lookup]
    by_cases h1 : k = ky
    · by_cases h2 : k = kx
      · exact absurd (h1.symm.trans h2) hne
      · rw [show (k == ky) = true from beq_iff_eq.mpr h1,
            show (k == kx) = false from beq_eq_false_iff_ne.mpr h2]
    · by_cases h2 : k = kx
      · rw [show (k == ky) = false from beq_eq_false_iff_ne.mpr h1,
            show (k == kx) = true from beq_iff_eq.mpr h2]
      · rw [show (k == ky) = false from beq_eq_false_iff_ne.mpr h1,
            show (k == kx) = false from beq_eq_false_iff_ne.mpr h2]
  | trans p₁ p₂ ih₁ ih₂ =>
    intro hn k
    have hn₂ := ((p₁.map Prod.fst).nodup_iff).mp hn
    exact (ih₁ hn k).trans (ih₂ hn₂ k)

theorem jEqFields_keys : ∀ {l₁ l : List (String × JValue)}, JEqFields l₁ l →
    l₁.map Prod.fst = l.map Prod.fst := by
  intro l₁
  induction l₁ with
  | nil => intro l h; cases h; rfl
  | cons p t ih =>
    intro l h
    cases h with
    | cons k v₁ v₂ t₁ t₂ hv ht => simp [ih ht]

theorem jEqFields_lookup : ∀ {l₁ l : List (String × JValue)}, JEqFields l₁ l →
    ∀ k, OptJEq (l₁.lookup k) (l.lookup k) := by
  intro l₁
  induction l₁ with
  | nil =>
    intro l h k
    cases h
    simp [List.lookup, OptJEq]
  | cons p t ih =>
    intro l h k
    cases h with
    | cons k' v₁ v₂ t₁ t₂ hv ht =>
      simp only [List.lookup]
      cases k == k'
      · exact ih ht k
      · exact hv

theorem jEq_lookup {l₁ l₂ : List (String × JValue)}
    (h : JEq (JValue.obj l₁) (JValue.obj l₂)) (k : String) :
    OptJEq (jLookup l₁ k) (jLookup l₂ k) := by
  cases h with
  | obj a mid b hf hp h1 h2 =>
    have hmid := jEqFields_lookup hf k
    have hkeys := jEqFields_keys hf
    have hnod : (mid.map Prod.fst).Nodup := hkeys ▸ h1
    have hpl := perm_lookup hp hnod k
    unfold jLookup
    rw [← hpl]
    exact hmid

theorem jEq_getString {l₁ l₂ : List (String × JValue)}
    (h : JEq (JValue.obj l₁) (JValue.obj l₂)) (k : String) :
    getString l₁ k = getString l₂ k := by
  have hlk := jEq_lookup h k
  unfold getString
  unfold jLookup at hlk ⊢
  cases h₁ : l₁.lookup k with
  | none =>
    cases h₂ : l₂.lookup k with
    | none => rfl
    | some v₂ =>
      rw [h₁, h₂] at hlk
      simp [OptJEq] at hlk
  | some v₁ =>
    cases h₂ : l₂.lookup k with
    | none =>
      rw [h₁, h₂] at hlk
      simp [OptJEq] at hlk
    | some v₂ =>
      rw [h₁, h₂] at hlk
      simp only [OptJEq] at hlk
      cases hlk <;> rfl

theorem jEq_getObj {l₁ l₂ : List (String × JValue)}
    (h : JEq (JValue.obj l₁) (JValue.obj l₂)) (k : String) :
    (getObj l₁ k = none ∧ getObj l₂ k = none) ∨
    (∃ a b, getObj l₁ k = some a ∧ getObj l₂ k = some b ∧ JEq (JValue.obj a) (JValue.obj b)) := by
  have hlk := jEq_lookup h k
  unfold getObj
  unfold jLookup at hlk ⊢
  cases h₁ : l₁.lookup k with
  | none =>
    cases h₂ : l₂.lookup k with
    | none => exact Or.inl ⟨rfl, rfl⟩
    | some v₂ =>
      rw [h₁, h₂] at hlk
      simp [OptJEq] at hlk
  | some v₁ =>
    cases h₂ : l₂.lookup k with
    | none =>
      rw [h₁, h₂] at hlk
      simp [OptJEq] at hlk
    | some v₂ =>
      rw [h₁, h₂] at hlk
      simp only [OptJEq] at hlk
      cases hlk with
      | null => exact Or.inl ⟨rfl, rfl⟩
      | bool b => exact Or.inl ⟨rfl, rfl⟩
      | num n => exact Or.inl ⟨rfl, rfl⟩
      | str s => exact Or.inl ⟨rfl, rfl⟩
      | arr xs ys => exact Or.inl ⟨rfl, rfl⟩
      | obj a mid b hf hp hn1 hn2 =>
        exact Or.inr ⟨a, b, rfl, rfl, JEq.obj _ _ _ hf hp hn1 hn2⟩

theorem jEq_lookupD {l₁ l₂ : List (String × JValue)}
    (h : JEq (JValue.obj l₁) (JValue.obj l₂)) (k : String) :
    JEq ((jLookup l₁ k).getD JValue.null) ((jLookup l₂ k).getD JValue.null) := by
  have hlk := jEq_lookup h k
  cases h₁ : jLookup l₁ k with
  | none =>
    cases h₂ : jLookup l₂ k with
    | none => exact JEq.null
    | some v₂ =>
      rw [h₁, h₂] at hlk
      simp [OptJEq] at hlk
  | some v₁ =>
    cases h₂ : jLookup l₂ k with
    | none =>
      rw [h₁, h₂] at hlk
      simp [OptJEq] at hlk
    | some v₂ =>
      rw [h₁, h₂] at hlk
      simpa [OptJEq] using hlk

theorem jEq_sortedKeys {l₁ l₂ : List (String × JValue)}
    (h : JEq (JValue.obj l₁) (JValue.obj l₂)) : sortedKeys l₁ = sortedKeys l₂ := by
  cases h with
  | obj a mid b hf hp h1 h2 =>
    unfold sortedKeys
    refine sortStrings_congr ?_
    rw [jEqFields_keys hf]
    exact hp.map Prod.fst

theorem jEq_objDescComment {pa pb : JObj} (h : JEq (JValue.obj pa) (JValue.obj pb)) :
    objDescComment pa = objDescComment pb := by
  unfold objDescComment
  rw [jEq_getString h "description"]

theorem jEq_descComment {pa pb : JObj} (h : JEq (JValue.obj pa) (JValue.obj pb)) (k : String) :
    descComment pa k = descComment pb k := by
  have hlk := jEq_lookup h k
  unfold descComment
  cases h₁ : jLookup pa k with
  | none =>
    cases h₂ : jLookup pb k with
    | none => rfl
    | some v₂ =>
      rw [h₁, h₂] at hlk
      simp [OptJEq] at hlk
  | some v₁ =>
    cases h₂ : jLookup pb k with
    | none =>
      rw [h₁, h₂] at hlk
      simp [OptJEq] at hlk
    | some v₂ =>
      rw [h₁, h₂] at hlk
      simp only [OptJEq] at hlk
      cases hlk with
      | null => rfl
      | bool b => rfl
      | num n => rfl
      | str s => rfl
      | arr xs ys => rfl
      | obj a mid b hf hp hn1 hn2 =>
        exact jEq_objDescComment (JEq.obj _ _ _ hf hp hn1 hn2)

/-! ### Fuel stability and permutation congruence of the walk -/

theorem collectNestedFields_congr
    {f₁ f₂ : String → JValue → Registry → Except String (String × Registry)}
    {pa pb : JObj}
    (h : ∀ k mm, f₁ k ((jLookup pa k).getD JValue.null) mm =
      f₂ k ((jLookup pb k).getD JValue.null) mm) :
    ∀ (ks : List String) (num : Nat) (acc : String) (mm : Registry),
      collectNestedFields f₁ pa ks num acc mm = collectNestedFields f₂ pb ks num acc mm := by
  intro ks
  induction ks with
  | nil => intro num acc mm; rfl
  | cons k ks ih =>
    intro num acc mm
    simp only [collectNestedFields]
    rw [h k mm]
    cases hres : f₂ k ((jLookup pb k).getD JValue.null) mm with
    | error e => rfl
    | ok res =>
      obtain ⟨ft, mm'⟩ := res
      dsimp only
      by_cases hft : ft = ""
      · rw [if_pos hft, if_pos hft]
        exact ih _ _ _
      · rw [if_neg hft, if_neg hft]
        exact ih _ _ _

theorem pPCF_stable :
    ∀ (f₁ : Nat) (p : JValue) (f₂ : Nat), jSize p ≤ f₁ → jSize p ≤ f₂ →
      ∀ (name : String) (m : Registry) (o : Options),
        processPropertyCollectF f₁ name p m o = processPropertyCollectF f₂ name p m o := by
  intro f₁
  induction f₁ with
  | zero =>
    intro p f₂ h1 _ _ _ _
    exact absurd h1 (by have := jSize_pos p; omega)
  | succ f₁ ih =>
    intro p f₂ h1 h2 name m o
    cases f₂ with
    | zero => exact absurd h2 (by have := jSize_pos p; omega)
    | succ f₂ =>
      cases p with
      | null => rfl
      | bool b => rfl
      | num n => rfl
      | str s => rfl
      | arr xs => rfl
      | obj propMap =>
        simp only [processPropertyCollectF]
        by_cases harr : getString propMap "type" = "array"
        · rw [if_pos harr, if_pos harr]
          cases hit : getObj propMap "items" with
          | none => rfl
          | some items =>
            have hsz := getObj_size hit
            dsimp only
            rw [ih (JValue.obj items) f₂ (by omega) (by omega)]
        · rw [if_neg harr, if_neg harr]
          by_cases hobj : getString propMap "type" = "object"
          · rw [if_pos hobj, if_pos hobj]
            by_cases hin : (m.lookup (toProtoMessageName name)).isSome
            · rw [if_pos hin, if_pos hin]
            · rw [if_neg hin, if_neg hin]
              cases hp : getObj propMap "properties" with
              | none => rfl
              | some props =>
                have hsz := getObj_size hp
                have hres : ∀ kk (mm : Registry),
                    processPropertyCollectF f₁ kk ((jLookup props kk).getD JValue.null) mm o =
                    processPropertyCollectF f₂ kk ((jLookup props kk).getD JValue.null) mm o := by
                  intro kk mm
                  have hv : jSize ((jLookup props kk).getD JValue.null) <
                      jSize (JValue.obj props) := by
                    cases hj : jLookup props kk with
                    | none =>
                      have := jSizeObj_pos props
                      simp only [Option.getD, jSize]
                      omega
                    | some v => simpa using jLookup_size hj
                  exact ih ((jLookup props kk).getD JValue.null) f₂ (by omega) (by omega) kk mm o
                dsimp only
                rw [@collectNestedFields_congr
                  (fun n pp mm' => processPropertyCollectF f₁ n pp mm' o)
                  (fun n pp mm' => processPropertyCollectF f₂ n pp mm' o)
                  props props hres (sortedKeys props) 1 "" m]
          · rw [if_neg hobj, if_neg hobj]

theorem pPCF_congr :
    ∀ (fuel : Nat) (p₁ p₂ : JValue), JEq p₁ p₂ →
      ∀ (name : String) (m : Registry) (o : Options),
        processPropertyCollectF fuel name p₁ m o = processPropertyCollectF fuel name p₂ m o := by
  intro fuel
  induction fuel with
  | zero => intro p₁ p₂ _ name m o; rfl
  | succ fuel ih =>
    intro p₁ p₂ hJ name m o
    cases hJ with
    | null => rfl
    | bool b => rfl
    | num n => rfl
    | str s => rfl
    | arr xs ys => rfl
    | obj l₁ mid l₂ hf hp hn1 hn2 =>
      have hJ' : JEq (JValue.obj l₁) (JValue.obj l₂) := JEq.obj _ _ _ hf hp hn1 hn2
      have hts := jEq_getString hJ' "type"
      have hfmt := jEq_getString hJ' "format"
      simp only [processPropertyCollectF]
      rw [← hts, ← hfmt]
      by_cases harr : getString l₁ "type" = "array"
      · rw [if_pos harr, if_pos harr]
        rcases jEq_getObj hJ' "items" with ⟨hi₁, hi₂⟩ | ⟨a, b, ha, hb, hab⟩
        · rw [hi₁, hi₂]
        · rw [ha, hb]
          dsimp only
          rw [ih _ _ hab _ _ _]
      · rw [if_neg harr, if_neg harr]
        by_cases hobj : getString l₁ "type" = "object"
        · rw [if_pos hobj, if_pos hobj]
          by_cases hin : (m.lookup (toProtoMessageName name)).isSome
          · rw [if_pos hin, if_pos hin]
          · rw [if_neg hin, if_neg hin]
            rcases jEq_getObj hJ' "properties" with ⟨hi₁, hi₂⟩ | ⟨a, b, ha, hb, hab⟩
            · rw [hi₁, hi₂]
            · rw [ha, hb]
              have hkeys : sortedKeys a = sortedKeys b := jEq_sortedKeys hab
              have hres : ∀ kk (mm : Registry),
                  processPropertyCollectF fuel kk ((jLookup a kk).getD JValue.null) mm o =
                  processPropertyCollectF fuel kk ((jLookup b kk).getD JValue.null) mm o :=
                fun kk mm => ih _ _ (jEq_lookupD hab kk) kk mm o
              dsimp only
              rw [← hkeys, @collectNestedFields_congr
                (fun n pp mm' => processPropertyCollectF fuel n pp mm' o)
                (fun n pp mm' => processPropertyCollectF fuel n pp mm' o)
                a b hres (sortedKeys a) 1 "" m]
        · rw [if_neg hobj, if_neg hobj]

theorem processPropertyCollect_congr {v₁ v₂ : JValue} (h : JEq v₁ v₂) :
    ∀ (name : String) (m : Registry) (o : Options),
      processPropertyCollect name v₁ m o = processPropertyCollect name v₂ m o := by
  intro name m o
  have e₁ : processPropertyCollect name v₁ m o =
      processPropertyCollectF (jSize v₁ + jSize v₂ + 1) name v₁ m o :=
    pPCF_stable (jSize v₁ + 1) v₁ (jSize v₁ + jSize v₂ + 1) (by omega)
      (by have := jSize_pos v₂; omega) name m o
  have e₂ : processPropertyCollect name v₂ m o =
      processPropertyCollectF (jSize v₁ + jSize v₂ + 1) name v₂ m o :=
    pPCF_stable (jSize v₂ + 1) v₂ (jSize v₁ + jSize v₂ + 1) (by omega)
      (by have := jSize_pos v₁; omega) name m o
  rw [e₁, e₂]
  exact pPCF_congr _ _ _ h name m o

theorem collectTopLevelFields_congr {pa pb : JObj}
    (h : JEq (JValue.obj pa) (JValue.obj pb)) (o : Options) :
    ∀ (ks : List String) (num : Nat) (acc : String) (m : Registry),
      collectTopLevelFields pa o ks num acc m = collectTopLevelFields pb o ks num acc m := by
  intro ks
  induction ks with
  | nil => intro num acc m; rfl
  | cons k ks ih =>
    intro num acc m
    simp only [collectTopLevelFields]
    rw [jEq_descComment h k]
    rw [processPropertyCollect_congr (jEq_lookupD h k) k m o]
    cases hres : processPropertyCollect k ((jLookup pb k).getD JValue.null) m o with
    | error e => rfl
    | ok res =>
      obtain ⟨ft, m'⟩ := res
      dsimp only
      by_cases hft : ft = ""
      · rw [if_pos hft, if_pos hft]
        exact ih _ _ _
      · rw [if_neg hft, if_neg hft]
        exact ih _ _ _

theorem defsLoop_congr {da db : JObj} (h : JEq (JValue.obj da) (JValue.obj db)) (o : Options) :
    ∀ (ns : List String) (m : Registry), defsLoop da o ns m = defsLoop db o ns m := by
  intro ns
  induction ns with
  | nil => intro m; rfl
  | cons dn dns ih =>
    intro m
    have hlk := jEq_lookup h dn
    cases h₁ : jLookup da dn with
    | none =>
      cases h₂ : jLookup db dn with
      | none =>
        simp only [defsLoop, h₁, h₂]
        exact ih m
      | some v₂ =>
        rw [h₁, h₂] at hlk
        simp [OptJEq] at hlk
    | some v₁ =>
      cases h₂ : jLookup db dn with
      | none =>
        rw [h₁, h₂] at hlk
        simp [OptJEq] at hlk
      | some v₂ =>
        rw [h₁, h₂] at hlk
        simp only [OptJEq] at hlk
        cases hlk with
        | null =>
          simp only [defsLoop, h₁, h₂]
          exact ih m
        | bool b =>
          simp only [defsLoop, h₁, h₂]
          exact ih m
        | num n =>
          simp only [defsLoop, h₁, h₂]
          exact ih m
        | str s =>
          simp only [defsLoop, h₁, h₂]
          exact ih m
        | arr xs ys =>
          simp only [defsLoop, h₁, h₂]
          exact ih m
        | obj dm₁ mid dm₂ hf hp hn1 hn2 =>
          have hdm : JEq (JValue.obj dm₁) (JValue.obj dm₂) := JEq.obj _ _ _ hf hp hn1 hn2
          simp only [defsLoop, h₁, h₂]
          rcases jEq_getObj hdm "properties" with ⟨hi₁, hi₂⟩ | ⟨a, b, ha, hb, hab⟩
          · rw [hi₁, hi₂, jEq_objDescComment hdm]
            dsimp only
            exact ih _
          · rw [ha, hb]
            dsimp only
            rw [← jEq_sortedKeys hab, collectTopLevelFields_congr hab o (sortedKeys a) 1 "" m,
                jEq_objDescComment hdm]
            cases hres : collectTopLevelFields b o (sortedKeys a) 1 "" m with
            | error e => rfl
            | ok res =>
              obtain ⟨fields, m₁⟩ := res
              dsimp only
              exact ih _

theorem convertCore_congr {s₁ s₂ : JObj} (h : JEq (JValue.obj s₁) (JValue.obj s₂)) (o : Options) :
    convertCore s₁ o = convertCore s₂ o := by
  rcases jEq_getObj h "properties" with ⟨hp₁, hp₂⟩ | ⟨a, b, ha, hb, hab⟩
  · simp only [convertCore, hp₁, hp₂]
    rcases jEq_getObj h "definitions" with ⟨hd₁, hd₂⟩ | ⟨da, db, hda, hdb, hdab⟩
    · rw [hd₁, hd₂]
    · rw [hda, hdb]
      dsimp only
      rw [← jEq_sortedKeys hdab]
      exact defsLoop_congr hdab o _ _
  · simp only [convertCore, ha, hb]
    rw [← jEq_sortedKeys hab, collectTopLevelFields_congr hab o (sortedKeys a) 1 "" [],
        jEq_objDescComment h]
    cases hres : collectTopLevelFields b o (sortedKeys a) 1 "" [] with
    | error e => rfl
    | ok res =>
      obtain ⟨rootFields, m₀⟩ := res
      dsimp only
      rcases jEq_getObj h "definitions" with ⟨hd₁, hd₂⟩ | ⟨da, db, hda, hdb, hdab⟩
      · rw [hd₁, hd₂]
      · rw [hda, hdb]
        dsimp only
        rw [← jEq_sortedKeys hdab]
        exact defsLoop_congr hdab o _ _

/-! ### Claim C9 -/

/-- Claim C9: conversion is deterministic and independent of map
iteration order: converting two parsed schemas that differ only in the
iteration order of their objects' bindings (the relation `JEq`, which
relates any two `json.Unmarshal` results for the same input text)
produces byte-identical output, for every options value — property
traversal and emission both work on sorted key lists. -/
theorem c9_determinism :
    ∀ (s₁ s₂ : JObj) (opts : Option Options),
      JEq (JValue.obj s₁) (JValue.obj s₂) →
      ConvertJSONSchemaToProto s₁ opts = ConvertJSONSchemaToProto s₂ opts := by
  intro s₁ s₂ opts h
  unfold ConvertJSONSchemaToProto
  dsimp only
  rw [convertCore_congr h (opts.getD DefaultOptions)]

/-- Claim C9 (witness): the determinism theorem applied to a concrete
schema and the same schema with its two properties listed in the
opposite order. -/
theorem c9_witness :
    ConvertJSONSchemaToProto
      [("properties", JValue.obj
        [("b", JValue.obj [("type", JValue.str "string")]),
         ("a", JValue.obj [("type", JValue.str "integer")])])] none =
    ConvertJSONSchemaToProto
      [("properties", JValue.obj
        [("a", JValue.obj [("type", JValue.str "integer")]),
         ("b", JValue.obj [("type", JValue.str "string")])])] none := by
  refine c9_determinism _ _ none ?_
  refine JEq.obj _
    [("properties", JValue.obj
      [("a", JValue.obj [("type", JValue.str "integer")]),
       ("b", JValue.obj [("type", JValue.str "string")])])] _
    ?_ (List.Perm.refl _) (by decide) (by decide)
  refine JEqFields.cons "properties" _ _ [] [] ?_ JEqFields.nil
  refine JEq.obj _
    [("b", JValue.obj [("type", JValue.str "string")]),
     ("a", JValue.obj [("type", JValue.str "integer")])] _
    ?_ ?_ (by decide) (by decide)
  · refine JEqFields.cons "b" _ _ _ _ ?_ (JEqFields.cons "a" _ _ [] [] ?_ JEqFields.nil)
    · exact JEq.obj _ _ _
        (JEqFields.cons "type" _ _ [] [] (JEq.str "string") JEqFields.nil)
        (List.Perm.refl _) (by decide) (by decide)
    · exact JEq.obj _ _ _
        (JEqFields.cons "type" _ _ [] [] (JEq.str "integer") JEqFields.nil)
        (List.Perm.refl _) (by decide) (by decide)
  · exact List.Perm.swap _ _ _
